import Mathlib

/-!
Verification of the spectral-transformation layer of the Spectra
`SymGEigsShiftSolver` (shift-and-invert mode for the symmetric generalized
eigenvalue problem A x = λ B x).

The source under verification is `include/Spectra/SymGEigsShiftSolver.h`.
The solver's working scalar type (`float`/`double`/`long double`) is embedded
as the exact rationals `ℚ`; Ritz-value buffers (`m_ritz_val`) are lists of
rationals.  Code of the repository that is only declared here (the Base
solver `SymEigsBase` and the operator composer `SymGEigsShiftInvertOp`) is
modelled from the specification; such definitions carry a doc comment
starting with "Modelled from the spec:".
-/

namespace Spectra

open scoped List

/-- Completion status, as in the spec's status-code data model:
not started, converging, converged, max-iterations-reached. -/
inductive CompInfo
  | NotStarted
  | Converging
  | Converged
  | MaxIterationsReached
deriving DecidableEq, Repr

/-- Sort rules for symmetric eigensolvers (`SortRule` enum):
selection criteria for ranking Ritz values. -/
inductive SortRule
  | LargestMagn
  | LargestAlge
  | SmallestMagn
  | SmallestAlge
deriving DecidableEq, Repr

/-- The numeric key a sort rule ranks values by, oriented so that the rule
always means "ascending by key". -/
def ruleKey : SortRule → ℚ → ℚ
  | SortRule.LargestMagn, x => -|x|
  | SortRule.LargestAlge, x => -x
  | SortRule.SmallestMagn, x => |x|
  | SortRule.SmallestAlge, x => x

/-- Ascending-by-key comparison with ties in the key broken by the value
itself, so the comparison is a total, antisymmetric, transitive order. -/
def lexLE (k : ℚ → ℚ) (x y : ℚ) : Prop :=
  k x < k y ∨ (k x = k y ∧ x ≤ y)

instance (k : ℚ → ℚ) : DecidableRel (lexLE k) := fun x y =>
  inferInstanceAs (Decidable (k x < k y ∨ (k x = k y ∧ x ≤ y)))

instance (k : ℚ → ℚ) : IsTotal ℚ (lexLE k) where
  total x y := by
    rcases lt_trichotomy (k x) (k y) with h | h | h
    · exact Or.inl (Or.inl h)
    · rcases le_total x y with h' | h'
      · exact Or.inl (Or.inr ⟨h, h'⟩)
      · exact Or.inr (Or.inr ⟨h.symm, h'⟩)
    · exact Or.inr (Or.inl h)

instance (k : ℚ → ℚ) : IsTrans ℚ (lexLE k) where
  trans x y z hxy hyz := by
    rcases hxy with h1 | ⟨h1, h1'⟩
    · rcases hyz with h2 | ⟨h2, _⟩
      · exact Or.inl (h1.trans h2)
      · exact Or.inl (h2 ▸ h1)
    · rcases hyz with h2 | ⟨h2, h2'⟩
      · exact Or.inl (h1 ▸ h2)
      · exact Or.inr ⟨h1.trans h2, h1'.trans h2'⟩

instance (k : ℚ → ℚ) : IsAntisymm ℚ (lexLE k) where
  antisymm x y hxy hyx := by
    rcases hxy with h1 | ⟨h1, h1'⟩
    · rcases hyx with h2 | ⟨h2, _⟩
      · exact absurd h2 (lt_asymm h1)
      · exact absurd h2 (ne_of_gt h1)
    · rcases hyx with h2 | ⟨_, h2'⟩
      · exact absurd h2 (not_lt.mpr (le_of_eq h1))
      · exact le_antisymm h1' h2'

/-- Modelled from the spec: the total comparison the Base solver's generic
sort-and-truncate procedure uses for a given sort rule (the sort key of the
rule, ties broken deterministically by the value itself). -/
def ruleLE (rule : SortRule) : ℚ → ℚ → Prop :=
  lexLE (ruleKey rule)

instance (rule : SortRule) : DecidableRel (ruleLE rule) := fun x y =>
  inferInstanceAs (Decidable (lexLE (ruleKey rule) x y))

instance (rule : SortRule) : IsTotal ℚ (ruleLE rule) := by
  unfold ruleLE; infer_instance

instance (rule : SortRule) : IsTrans ℚ (ruleLE rule) := by
  unfold ruleLE; infer_instance

instance (rule : SortRule) : IsAntisymm ℚ (ruleLE rule) := by
  unfold ruleLE; infer_instance

/-- The comparison on (Ritz value, Ritz vector) pairs: compares by the
value component only, as the Base solver sorts pairs by their Ritz value. -/
def pairLE (rule : SortRule) (a b : ℚ × List ℚ) : Prop :=
  ruleLE rule a.1 b.1

instance (rule : SortRule) : DecidableRel (pairLE rule) := fun a b =>
  inferInstanceAs (Decidable (ruleLE rule a.1 b.1))

instance (rule : SortRule) : IsTotal (ℚ × List ℚ) (pairLE rule) where
  total a b := IsTotal.total (r := ruleLE rule) a.1 b.1

instance (rule : SortRule) : IsTrans (ℚ × List ℚ) (pairLE rule) where
  trans _ _ _ hab hbc := Trans.trans (r := ruleLE rule) hab hbc

/-- Translation of the Ritz-value rewrite, line 158 of the source:
`m_ritz_val.head(m_nev).array() = Scalar(1) / m_ritz_val.head(m_nev).array() + m_sigma`.
The first `nev` entries ν of the buffer are replaced in place by
`1 / ν + σ`; the rest of the buffer is untouched. -/
def invert_ritz (sigma : ℚ) (nev : ℕ) (buf : List ℚ) : List ℚ :=
  (buf.take nev).map (fun nu => 1 / nu + sigma) ++ buf.drop nev

/-- The result state of the Base solver visible to this layer: the Ritz
value buffer `m_ritz_val`, the matching Ritz vectors, and the status code. -/
structure RitzState where
  ritz_val : List ℚ
  ritz_vec : List (List ℚ)
  info : CompInfo
deriving DecidableEq, Repr

/-- Modelled from the spec: `SymEigsBase::sort_ritzpair`, the Base solver's
generic sort-and-truncate procedure.  It sorts the first `nev` Ritz pairs
jointly by the requested rule (applied to the Ritz values) and leaves the
remainder of the buffers unchanged; the status code is not touched. -/
def base_sort_ritzpair (rule : SortRule) (nev : ℕ) (st : RitzState) : RitzState :=
  let pairs := (st.ritz_val.take nev).zip (st.ritz_vec.take nev)
  let sorted := pairs.insertionSort (pairLE rule)
  { st with
    ritz_val := sorted.map Prod.fst ++ st.ritz_val.drop nev
    ritz_vec := sorted.map Prod.snd ++ st.ritz_vec.drop nev }

/-- Translation of the `sort_ritzpair` override, lines 154-160 of the
source: first transform the Ritz values back (ν ↦ 1/ν + σ on the first
`nev` entries), then call `Base::sort_ritzpair(sort_rule)`. -/
def sort_ritzpair (sigma : ℚ) (rule : SortRule) (nev : ℕ) (st : RitzState) :
    RitzState :=
  base_sort_ritzpair rule nev
    { st with ritz_val := invert_ritz sigma nev st.ritz_val }

/-! ### Extended-scalar view of the Ritz rewrite

The working scalar type of the solver is a floating-point type, in which
division by zero produces a non-finite value instead of failing.  To state
the ν = 0 hazard we re-read line 158 over an extended scalar type:
`some x` is a finite value, `none` is a non-finite value (Inf/NaN). -/

/-- Floating-point-style division on extended scalars: dividing a finite
value by zero yields a non-finite value; any non-finite operand propagates. -/
def ediv : Option ℚ → Option ℚ → Option ℚ
  | some a, some b => if b = 0 then none else some (a / b)
  | _, _ => none

/-- Floating-point-style addition on extended scalars: non-finite operands
propagate. -/
def eadd : Option ℚ → Option ℚ → Option ℚ
  | some a, some b => some (a + b)
  | _, _ => none

/-- Translation of line 158 of the source over extended scalars: the first
`nev` entries ν become `1 / ν + σ`, evaluated with floating-point-style
division (so ν = 0 yields a non-finite result); the tail is untouched.
The function is total: it returns a rewritten buffer, never an error. -/
def invert_ritzE (sigma : ℚ) (nev : ℕ) (buf : List (Option ℚ)) :
    List (Option ℚ) :=
  (buf.take nev).map (fun nu => eadd (ediv (some 1) nu) (some sigma)) ++
    buf.drop nev

/-! ### The shift-invert operator composer -/

/-- A matrix-free linear operator: a problem dimension and an action on
vectors, as in the `Solve`/`Mult` operator contract. -/
structure LinOp where
  dim : ℕ
  apply : List ℚ → List ℚ

/-- Modelled from the spec: `SymGEigsShiftInvertOp`, the shift-invert
operator composer.  It holds the `Solve` operator (`op`, computing
(A−σB)⁻¹v), the `Mult` operator (`Bop`, computing Bv) and an intermediate
buffer reused across calls; `perform_op` applies `Bop` into the buffer and
then applies `op` to it, and `rows` forwards the problem dimension. -/
structure SymGEigsShiftInvertOp where
  op : LinOp
  Bop : LinOp
  cache : List ℚ

/-- The composed operator's declared problem dimension. -/
def SymGEigsShiftInvertOp.rows (o : SymGEigsShiftInvertOp) : ℕ :=
  o.op.dim

/-- One application of the composed operator: w := Bop(v) into the cache,
result := op(w).  Returns the updated composer state and the result. -/
def SymGEigsShiftInvertOp.perform_op (o : SymGEigsShiftInvertOp)
    (v : List ℚ) : SymGEigsShiftInvertOp × List ℚ :=
  let w := o.Bop.apply v
  ({ o with cache := w }, o.op.apply w)

/-- Dot product of two vectors. -/
def dot (u v : List ℚ) : ℚ :=
  (List.zipWith (fun a b => a * b) u v).sum

/-- Matrix-vector product, a matrix being a list of rows. -/
def matVec (M : List (List ℚ)) (v : List ℚ) : List ℚ :=
  M.map (fun row => dot row v)

/-- The linear operator of a concrete matrix. -/
def matOp (M : List (List ℚ)) : LinOp :=
  ⟨M.length, matVec M⟩

/-! ### The orchestrator: construction and operation traces

Construction (lines 183-188 of the source) and the subsequent solver
operations are embedded as state-passing functions that also emit a trace
of observable events, so that ordering and call-count claims can be
stated.  Per C++ initialization semantics, the base-class initializer of
the constructor runs first: its argument — the composed operator — is
built before the Base constructor executes (which is where the
`nev`/`ncv` validation lives), the member `m_sigma` is initialized next,
and the constructor body (`op.set_shift(m_sigma)`) runs last; if the Base
constructor fails, the body never runs. -/

/-- Observable events of the orchestrator and its collaborators. -/
inductive Ev
  | buildComposedOp
  | validateParams
  | setShift
  | baseInitEv
  | baseComputeEv
  | applyComposedEv
  | accessEv
deriving DecidableEq, Repr

/-- The orchestrator's state: problem dimension, requested count `nev`,
subspace size `ncv`, the shift `m_sigma`, and the Base solver's
result state. -/
structure Solver where
  n : ℕ
  nev : ℕ
  ncv : ℕ
  sigma : ℚ
  ritz : RitzState
deriving DecidableEq, Repr

/-- Modelled from the spec: the Base solver's construction-time validation
of `1 ≤ nev < ncv ≤ n`. -/
def base_validate (n nev ncv : ℕ) : Bool :=
  decide (1 ≤ nev) && decide (nev < ncv) && decide (ncv ≤ n)

/-- Translation of the constructor (lines 183-188 of the source), with the
Base solver's validation modelled from the spec.  C++ initializer order:
the composed operator is built (as the Base initializer's argument), the
Base constructor validates and constructs, `m_sigma` is initialized, and
the body injects the shift via `op.set_shift(m_sigma)` — or, if
validation fails, construction aborts and the body never runs. -/
def solver_construct (n nev ncv : ℕ) (sigma : ℚ) :
    Except String Solver × List Ev :=
  if base_validate n nev ncv then
    (Except.ok
      { n := n, nev := nev, ncv := ncv, sigma := sigma,
        ritz := { ritz_val := [], ritz_vec := [], info := CompInfo.NotStarted } },
     [Ev.buildComposedOp, Ev.validateParams, Ev.setShift])
  else
    (Except.error "nev/ncv validation failed",
     [Ev.buildComposedOp, Ev.validateParams])

/-- The operations available on a constructed solver.  `computeOp` carries
as oracle data the behaviour of the out-of-scope Base iteration: the
number `k` of composed-operator applications it performs and the Ritz
buffer (ν values and vectors) it leaves behind before finalization;
`initOp` carries the number of operator applications of the start-up. -/
inductive SolverOp
  | initOp (j : ℕ)
  | computeOp (rule : SortRule) (k : ℕ) (nus : List ℚ) (vecs : List (List ℚ))
  | evalsOp
  | evecsOp
  | infoOp

/-- One solver operation.  `initOp` and the accessors are passthroughs to
the Base solver (modelled from the spec: no transform-specific behaviour,
no shift injection); `computeOp` runs the Base iteration (oracle) and then
the `sort_ritzpair` override with the stored `m_sigma`. -/
def solver_step (s : Solver) : SolverOp → Solver × List Ev
  | SolverOp.initOp j => (s, Ev.baseInitEv :: List.replicate j Ev.applyComposedEv)
  | SolverOp.computeOp rule k nus vecs =>
      ({ s with
          ritz := sort_ritzpair s.sigma rule s.nev
            { ritz_val := nus, ritz_vec := vecs, info := CompInfo.Converged } },
       Ev.baseComputeEv :: List.replicate k Ev.applyComposedEv)
  | SolverOp.evalsOp => (s, [Ev.accessEv])
  | SolverOp.evecsOp => (s, [Ev.accessEv])
  | SolverOp.infoOp => (s, [Ev.accessEv])

/-- Run a list of solver operations, concatenating the emitted traces. -/
def solver_run (s : Solver) : List SolverOp → Solver × List Ev
  | [] => (s, [])
  | op :: rest =>
      let p := solver_step s op
      let q := solver_run p.1 rest
      (q.1, p.2 ++ q.2)

/-- Passthrough accessor: the first `nev` Ritz values (modelled from the
spec: inherited from the Base solver, not overridden by this layer). -/
def eigenvalues (s : Solver) : List ℚ :=
  s.ritz.ritz_val.take s.nev

/-- Passthrough accessor: the first `nev` Ritz vectors (modelled from the
spec: inherited from the Base solver, not overridden by this layer). -/
def eigenvectors (s : Solver) : List (List ℚ) :=
  s.ritz.ritz_vec.take s.nev

/-- Passthrough accessor: the Base solver's status code (modelled from the
spec: inherited from the Base solver, not overridden by this layer). -/
def info (s : Solver) : CompInfo :=
  s.ritz.info

/-! ### Helper lemmas: rewriting the head of a buffer -/

/-- Taking the head of a buffer whose first `nev` entries were mapped
recovers exactly the mapped head. -/
theorem headMap_take {α : Type} (f : α → α) (nev : ℕ) (buf : List α) :
    ((buf.take nev).map f ++ buf.drop nev).take nev = (buf.take nev).map f := by
  rcases le_total nev buf.length with h | h
  · exact List.take_left' (by simp [List.length_take, Nat.min_eq_left h])
  · rw [List.drop_eq_nil_of_le h, List.append_nil,
      List.take_of_length_le (by simp [List.length_take])]

/-- Entries past `nev` of a buffer whose first `nev` entries were mapped
are the original entries. -/
theorem headMap_drop {α : Type} (f : α → α) (nev : ℕ) (buf : List α) :
    ((buf.take nev).map f ++ buf.drop nev).drop nev = buf.drop nev := by
  rcases le_total nev buf.length with h | h
  · rw [List.drop_append_eq_append_drop]
    have h1 : ((buf.take nev).map f).length = nev := by
      simp [List.length_take, Nat.min_eq_left h]
    rw [h1, List.drop_eq_nil_of_le (le_of_eq h1), Nat.sub_self, List.drop_zero,
      List.nil_append]
  · rw [List.drop_eq_nil_of_le h, List.append_nil,
      List.drop_eq_nil_of_le (by simp [List.length_take])]

/-- Mapping the first `nev` entries of a buffer preserves its length. -/
theorem headMap_length {α : Type} (f : α → α) (nev : ℕ) (buf : List α) :
    ((buf.take nev).map f ++ buf.drop nev).length = buf.length := by
  simp [List.length_append, List.length_take, List.length_drop]
  omega

/-- Pointwise reading of a head-mapped buffer inside the mapped region. -/
theorem headMap_getD {α : Type} (f : α → α) (nev : ℕ) (buf : List α)
    (d : α) (i : ℕ) (h1 : i < nev) (h2 : i < buf.length) :
    ((buf.take nev).map f ++ buf.drop nev).getD i d = f (buf.getD i d) := by
  have hlen : i < ((buf.take nev).map f).length := by
    simp [List.length_take]; omega
  rw [List.getD_append _ _ _ _ hlen, List.getD_eq_getElem _ _ hlen,
    List.getD_eq_getElem _ _ h2]
  simp

/-- The Ritz rewrite of line 158, read through `List.take`: the first `nev`
entries become `1/ν + σ`. -/
theorem invert_ritz_take (sigma : ℚ) (nev : ℕ) (buf : List ℚ) :
    (invert_ritz sigma nev buf).take nev
      = (buf.take nev).map (fun nu => 1 / nu + sigma) :=
  headMap_take _ nev buf

/-- The Ritz rewrite of line 158 leaves entries at index ≥ `nev` unchanged. -/
theorem invert_ritz_drop (sigma : ℚ) (nev : ℕ) (buf : List ℚ) :
    (invert_ritz sigma nev buf).drop nev = buf.drop nev :=
  headMap_drop _ nev buf

/-- The Ritz rewrite of line 158 preserves the buffer length. -/
theorem invert_ritz_length (sigma : ℚ) (nev : ℕ) (buf : List ℚ) :
    (invert_ritz sigma nev buf).length = buf.length :=
  headMap_length _ nev buf

/-- Pointwise reading of the Ritz rewrite inside the rewritten region. -/
theorem invert_ritz_getD (sigma : ℚ) (nev : ℕ) (buf : List ℚ) (i : ℕ)
    (h1 : i < nev) (h2 : i < buf.length) :
    (invert_ritz sigma nev buf).getD i 0 = 1 / buf.getD i 0 + sigma :=
  headMap_getD _ nev buf 0 i h1 h2

/-! ### Claim theorems -/

/-- C1: in the finalize-and-sort override, every rewritten Ritz value ν
(the first `nev` entries of the buffer) is replaced in place by exactly
λ = 1/ν + σ, computed in the solver's working scalar type, and the
override consists of this inversion step followed by the Base sort:
for any fixed ν buffer the inversion produces exactly `1/ν + σ` for each
rewritten entry. -/
theorem C1_inversion_produces_inv_nu_plus_sigma (sigma : ℚ) (rule : SortRule)
    (nev : ℕ) (st : RitzState) (i : ℕ) (h1 : i < nev)
    (h2 : i < st.ritz_val.length) :
    (invert_ritz sigma nev st.ritz_val).take nev
        = (st.ritz_val.take nev).map (fun nu => 1 / nu + sigma) ∧
    (invert_ritz sigma nev st.ritz_val).getD i 0
        = 1 / st.ritz_val.getD i 0 + sigma ∧
    sort_ritzpair sigma rule nev st
        = base_sort_ritzpair rule nev
            { st with ritz_val := invert_ritz sigma nev st.ritz_val } :=
  ⟨invert_ritz_take sigma nev st.ritz_val,
   invert_ritz_getD sigma nev st.ritz_val i h1 h2, rfl⟩

/-- Witness for C1 at σ = 3, nev = 2, ν buffer [2, 4, 5]: the rewritten
head is [1/2 + 3, 1/4 + 3] and entry 0 equals 1/2 + 3. -/
theorem C1_inversion_produces_inv_nu_plus_sigma_witness :
    (invert_ritz 3 2 [2, 4, 5]).take 2
        = ([2, 4, 5].take 2).map (fun nu => 1 / nu + 3) ∧
    (invert_ritz 3 2 [2, 4, 5]).getD 0 0 = 1 / [(2 : ℚ), 4, 5].getD 0 0 + 3 ∧
    sort_ritzpair 3 SortRule.LargestMagn 2
        { ritz_val := [2, 4, 5], ritz_vec := [[1], [2], [3]],
          info := CompInfo.Converged }
      = base_sort_ritzpair SortRule.LargestMagn 2
          { ritz_val := invert_ritz 3 2 [2, 4, 5],
            ritz_vec := [[1], [2], [3]], info := CompInfo.Converged } :=
  C1_inversion_produces_inv_nu_plus_sigma 3 SortRule.LargestMagn 2
    { ritz_val := [2, 4, 5], ritz_vec := [[1], [2], [3]],
      info := CompInfo.Converged }
    0 (by decide) (by decide)

/-- C6: the finalize override's rewrite mutates exactly the first `nev`
entries of the Ritz-value buffer — entries at index ≥ `nev` are unchanged
and the buffer's length is preserved — and the Base sort step then runs on
that same rewritten buffer. -/
theorem C6_override_frame (sigma : ℚ) (rule : SortRule) (nev : ℕ)
    (st : RitzState) :
    (invert_ritz sigma nev st.ritz_val).length = st.ritz_val.length ∧
    (invert_ritz sigma nev st.ritz_val).drop nev = st.ritz_val.drop nev ∧
    (invert_ritz sigma nev st.ritz_val).take nev
        = (st.ritz_val.take nev).map (fun nu => 1 / nu + sigma) ∧
    sort_ritzpair sigma rule nev st
        = base_sort_ritzpair rule nev
            { st with ritz_val := invert_ritz sigma nev st.ritz_val } :=
  ⟨invert_ritz_length sigma nev st.ritz_val,
   invert_ritz_drop sigma nev st.ritz_val,
   invert_ritz_take sigma nev st.ritz_val, rfl⟩

/-- C3: the inversion step divides by ν unconditionally, with no guard for
ν = 0.  Read over the extended (floating-point-style) scalars: a buffer
with a numerically zero entry inside the rewritten region still goes
through the division, producing a non-finite λ at that position, and the
operation completes normally — the non-finite value is silently part of
the result buffer (same length, other entries rewritten as usual, tail
untouched); no error is raised and no state is rolled back. -/
theorem C3_zero_nu_division_unguarded (sigma : ℚ) (nev : ℕ)
    (buf : List (Option ℚ)) (i j : ℕ) (v : ℚ)
    (hi1 : i < nev) (hi2 : i < buf.length)
    (h0 : buf.getD i none = some 0)
    (hj1 : j < nev) (hj2 : j < buf.length)
    (hv : buf.getD j none = some v) (hvz : v ≠ 0) :
    (invert_ritzE sigma nev buf).length = buf.length ∧
    (invert_ritzE sigma nev buf).getD i none = none ∧
    (invert_ritzE sigma nev buf).getD j none = some (1 / v + sigma) ∧
    (invert_ritzE sigma nev buf).drop nev = buf.drop nev := by
  refine ⟨headMap_length _ nev buf, ?_, ?_, headMap_drop _ nev buf⟩
  · rw [show invert_ritzE sigma nev buf
        = (buf.take nev).map (fun nu => eadd (ediv (some 1) nu) (some sigma)) ++
            buf.drop nev from rfl,
      headMap_getD _ nev buf none i hi1 hi2, h0]
    simp [ediv, eadd]
  · rw [show invert_ritzE sigma nev buf
        = (buf.take nev).map (fun nu => eadd (ediv (some 1) nu) (some sigma)) ++
            buf.drop nev from rfl,
      headMap_getD _ nev buf none j hj1 hj2, hv]
    simp [ediv, eadd, hvz]

/-- Witness for C3 at σ = 3, nev = 2, buffer [0, 2] (extended scalars):
the zero entry becomes non-finite, the other entry becomes 1/2 + 3, the
buffer keeps its length and the operation completes without error. -/
theorem C3_zero_nu_division_unguarded_witness :
    (invert_ritzE 3 2 [some 0, some 2]).length = [some (0 : ℚ), some 2].length ∧
    (invert_ritzE 3 2 [some 0, some 2]).getD 0 none = none ∧
    (invert_ritzE 3 2 [some 0, some 2]).getD 1 none = some (1 / 2 + 3) ∧
    (invert_ritzE 3 2 [some 0, some 2]).drop 2 = [some (0 : ℚ), some 2].drop 2 :=
  C3_zero_nu_division_unguarded 3 2 [some 0, some 2] 0 1 2
    (by decide) (by decide) rfl (by decide) (by decide) rfl (by norm_num)

/-- C10: the ν → λ rewrite is not idempotent: on the buffer [1] with
σ = 1 and nev = 1 the override applied once yields the Ritz value 2, and
applied a second time yields 3/2 ≠ 2, so re-running the finalize step on
an already-inverted buffer changes the reported eigenvalues. -/
theorem C10_override_not_idempotent :
    sort_ritzpair 1 SortRule.SmallestAlge 1
        (sort_ritzpair 1 SortRule.SmallestAlge 1
          { ritz_val := [1], ritz_vec := [[1]], info := CompInfo.Converged })
      ≠ sort_ritzpair 1 SortRule.SmallestAlge 1
          { ritz_val := [1], ritz_vec := [[1]], info := CompInfo.Converged } := by
  have hsort : ∀ q : ℚ, sort_ritzpair 1 SortRule.SmallestAlge 1
      { ritz_val := [q], ritz_vec := [[1]], info := CompInfo.Converged }
      = { ritz_val := [1 / q + 1], ritz_vec := [[1]],
          info := CompInfo.Converged } := by
    intro q
    simp [sort_ritzpair, base_sort_ritzpair, invert_ritz]
  have h1 := hsort 1
  norm_num at h1
  rw [h1, hsort 2]
  intro h
  have hv := congrArg RitzState.ritz_val h
  norm_num at hv

/-- The first `nev` Ritz values after the Base sort are the value
components of the sorted (value, vector) pairs. -/
theorem base_sort_val_take (rule : SortRule) (nev : ℕ) (st : RitzState)
    (hv : nev ≤ st.ritz_val.length) (hw : nev ≤ st.ritz_vec.length) :
    (base_sort_ritzpair rule nev st).ritz_val.take nev
      = (((st.ritz_val.take nev).zip (st.ritz_vec.take nev)).insertionSort
          (pairLE rule)).map Prod.fst := by
  apply List.take_left'
  rw [List.length_map,
    (List.perm_insertionSort (pairLE rule) _).length_eq, List.length_zip]
  simp [List.length_take, Nat.min_eq_left hv, Nat.min_eq_left hw]

/-- After the override, the first `nev` Ritz values are sorted by the
requested rule and are a permutation of the inverted λ values
`1/ν + σ` of the first `nev` emitted ν values. -/
theorem sort_ritzpair_val_head (sigma : ℚ) (rule : SortRule) (nev : ℕ)
    (st : RitzState) (hv : nev ≤ st.ritz_val.length)
    (hw : nev ≤ st.ritz_vec.length) :
    List.Sorted (ruleLE rule)
        ((sort_ritzpair sigma rule nev st).ritz_val.take nev) ∧
    ((sort_ritzpair sigma rule nev st).ritz_val.take nev
      ~ (st.ritz_val.take nev).map (fun nu => 1 / nu + sigma)) := by
  have hv' : nev ≤ (invert_ritz sigma nev st.ritz_val).length := by
    rw [invert_ritz_length]; exact hv
  have htake := base_sort_val_take rule nev
    { st with ritz_val := invert_ritz sigma nev st.ritz_val } hv' hw
  rw [show sort_ritzpair sigma rule nev st
      = base_sort_ritzpair rule nev
          { st with ritz_val := invert_ritz sigma nev st.ritz_val } from rfl,
    htake]
  constructor
  · have hs := List.sorted_insertionSort (pairLE rule)
      (((invert_ritz sigma nev st.ritz_val).take nev).zip (st.ritz_vec.take nev))
    rw [List.Sorted, List.pairwise_map]
    exact hs
  · have hperm := (List.perm_insertionSort (pairLE rule)
      (((invert_ritz sigma nev st.ritz_val).take nev).zip
        (st.ritz_vec.take nev))).map Prod.fst
    rw [List.map_fst_zip _ _ (by
      rw [List.length_take, List.length_take, invert_ritz_length,
        Nat.min_eq_left hv, Nat.min_eq_left hw])] at hperm
    exact hperm.trans (List.Perm.of_eq (invert_ritz_take sigma nev st.ritz_val))

/-- C2: the finalize-and-sort override first rewrites ν to λ and only then
re-invokes the Base solver's sort with the caller's original rule, so the
returned first `nev` eigenvalues are the rule-sorted inverted λ values:
they are sorted by the rule, they are a permutation of `1/ν + σ` over the
emitted ν values, and they are independent of the order in which the Base
solver emitted those ν values. -/
theorem C2_resort_applies_rule_to_lambda (sigma : ℚ) (rule : SortRule)
    (nev : ℕ) (st1 st2 : RitzState)
    (hv1 : nev ≤ st1.ritz_val.length) (hw1 : nev ≤ st1.ritz_vec.length)
    (hv2 : nev ≤ st2.ritz_val.length) (hw2 : nev ≤ st2.ritz_vec.length)
    (hperm : st1.ritz_val.take nev ~ st2.ritz_val.take nev) :
    sort_ritzpair sigma rule nev st1
        = base_sort_ritzpair rule nev
            { st1 with ritz_val := invert_ritz sigma nev st1.ritz_val } ∧
    List.Sorted (ruleLE rule)
        ((sort_ritzpair sigma rule nev st1).ritz_val.take nev) ∧
    ((sort_ritzpair sigma rule nev st1).ritz_val.take nev
        ~ (st1.ritz_val.take nev).map (fun nu => 1 / nu + sigma)) ∧
    (sort_ritzpair sigma rule nev st1).ritz_val.take nev
        = (sort_ritzpair sigma rule nev st2).ritz_val.take nev := by
  obtain ⟨hs1, hp1⟩ := sort_ritzpair_val_head sigma rule nev st1 hv1 hw1
  obtain ⟨hs2, hp2⟩ := sort_ritzpair_val_head sigma rule nev st2 hv2 hw2
  refine ⟨rfl, hs1, hp1, ?_⟩
  exact List.eq_of_perm_of_sorted
    (hp1.trans ((hperm.map _).trans hp2.symm)) hs1 hs2

/-- Witness for C2: two stub Base solvers emit the same converged ν values
{2, −1} in opposite orders (with different tails and vectors); the
override returns identically ordered λ heads, sorted by the rule. -/
theorem C2_resort_applies_rule_to_lambda_witness :
    sort_ritzpair 0 SortRule.SmallestAlge 2
        { ritz_val := [2, -1, 7], ritz_vec := [[1], [2], [3]],
          info := CompInfo.Converged }
        = base_sort_ritzpair SortRule.SmallestAlge 2
            { ritz_val := invert_ritz 0 2 [2, -1, 7],
              ritz_vec := [[1], [2], [3]], info := CompInfo.Converged } ∧
    List.Sorted (ruleLE SortRule.SmallestAlge)
        ((sort_ritzpair 0 SortRule.SmallestAlge 2
          { ritz_val := [2, -1, 7], ritz_vec := [[1], [2], [3]],
            info := CompInfo.Converged }).ritz_val.take 2) ∧
    ((sort_ritzpair 0 SortRule.SmallestAlge 2
        { ritz_val := [2, -1, 7], ritz_vec := [[1], [2], [3]],
          info := CompInfo.Converged }).ritz_val.take 2
        ~ ([(2 : ℚ), -1, 7].take 2).map (fun nu => 1 / nu + 0)) ∧
    (sort_ritzpair 0 SortRule.SmallestAlge 2
        { ritz_val := [2, -1, 7], ritz_vec := [[1], [2], [3]],
          info := CompInfo.Converged }).ritz_val.take 2
        = (sort_ritzpair 0 SortRule.SmallestAlge 2
            { ritz_val := [-1, 2, 9], ritz_vec := [[4], [5], [6]],
              info := CompInfo.Converged }).ritz_val.take 2 :=
  C2_resort_applies_rule_to_lambda 0 SortRule.SmallestAlge 2
    { ritz_val := [2, -1, 7], ritz_vec := [[1], [2], [3]],
      info := CompInfo.Converged }
    { ritz_val := [-1, 2, 9], ritz_vec := [[4], [5], [6]],
      info := CompInfo.Converged }
    (by decide) (by decide) (by decide) (by decide)
    (List.Perm.swap (-1 : ℚ) 2 [])

/-- C9: the shift-invert layer's only mutation of the Base solver's result
state is the in-place Ritz-value rewrite: the rewrite step preserves the
eigenvector buffer and the status code, the override is exactly the Base
sort run after that rewrite, the override never changes the status code,
the eigenvector columns of the final state are (as a collection) exactly
the Base solver's columns, and after a compute step the accessors expose
the Base-sorted eigenvector buffer and the Base status unchanged. -/
theorem C9_eigenvectors_and_accessors_passthrough (sigma : ℚ)
    (rule : SortRule) (nev : ℕ) (st : RitzState) (s : Solver) (k : ℕ)
    (nus : List ℚ) (vecs : List (List ℚ))
    (hv : nev ≤ st.ritz_val.length) (hw : nev ≤ st.ritz_vec.length) :
    ({ st with ritz_val := invert_ritz sigma nev st.ritz_val }).ritz_vec
        = st.ritz_vec ∧
    ({ st with ritz_val := invert_ritz sigma nev st.ritz_val }).info
        = st.info ∧
    sort_ritzpair sigma rule nev st
        = base_sort_ritzpair rule nev
            { st with ritz_val := invert_ritz sigma nev st.ritz_val } ∧
    (sort_ritzpair sigma rule nev st).info = st.info ∧
    ((sort_ritzpair sigma rule nev st).ritz_vec ~ st.ritz_vec) ∧
    eigenvectors (solver_step s (SolverOp.computeOp rule k nus vecs)).1
        = ((base_sort_ritzpair rule s.nev
              { ritz_val := invert_ritz s.sigma s.nev nus, ritz_vec := vecs,
                info := CompInfo.Converged }).ritz_vec).take s.nev ∧
    info (solver_step s (SolverOp.computeOp rule k nus vecs)).1
        = CompInfo.Converged := by
  refine ⟨rfl, rfl, rfl, rfl, ?_, rfl, rfl⟩
  have hperm := (List.perm_insertionSort (pairLE rule)
    (((invert_ritz sigma nev st.ritz_val).take nev).zip
      (st.ritz_vec.take nev))).map Prod.snd
  rw [List.map_snd_zip _ _ (by
    rw [List.length_take, List.length_take, invert_ritz_length,
      Nat.min_eq_left hv, Nat.min_eq_left hw])] at hperm
  calc (sort_ritzpair sigma rule nev st).ritz_vec
      ~ st.ritz_vec.take nev ++ st.ritz_vec.drop nev :=
        hperm.append (List.Perm.refl _)
    _ = st.ritz_vec := List.take_append_drop nev st.ritz_vec

/-- Witness for C9 on a concrete state (nev = 2, three Ritz pairs): all
passthrough facts hold and the eigenvector columns are preserved. -/
theorem C9_eigenvectors_and_accessors_passthrough_witness :
    ({ ritz_val := invert_ritz 5 2 [2, -1, 7], ritz_vec := [[1], [2], [3]],
        info := CompInfo.Converged } : RitzState).ritz_vec = [[1], [2], [3]] ∧
    ({ ritz_val := invert_ritz 5 2 [2, -1, 7], ritz_vec := [[1], [2], [3]],
        info := CompInfo.Converged } : RitzState).info = CompInfo.Converged ∧
    sort_ritzpair 5 SortRule.LargestMagn 2
        { ritz_val := [2, -1, 7], ritz_vec := [[1], [2], [3]],
          info := CompInfo.Converged }
        = base_sort_ritzpair SortRule.LargestMagn 2
            { ritz_val := invert_ritz 5 2 [2, -1, 7],
              ritz_vec := [[1], [2], [3]], info := CompInfo.Converged } ∧
    (sort_ritzpair 5 SortRule.LargestMagn 2
        { ritz_val := [2, -1, 7], ritz_vec := [[1], [2], [3]],
          info := CompInfo.Converged }).info = CompInfo.Converged ∧
    ((sort_ritzpair 5 SortRule.LargestMagn 2
        { ritz_val := [2, -1, 7], ritz_vec := [[1], [2], [3]],
          info := CompInfo.Converged }).ritz_vec ~ [[1], [2], [3]]) ∧
    eigenvectors (solver_step
        { n := 3, nev := 2, ncv := 3, sigma := 5,
          ritz := { ritz_val := [], ritz_vec := [], info := CompInfo.NotStarted } }
        (SolverOp.computeOp SortRule.LargestMagn 4 [2, -1, 7]
          [[1], [2], [3]])).1
        = ((base_sort_ritzpair SortRule.LargestMagn 2
              { ritz_val := invert_ritz 5 2 [2, -1, 7],
                ritz_vec := [[1], [2], [3]],
                info := CompInfo.Converged }).ritz_vec).take 2 ∧
    info (solver_step
        { n := 3, nev := 2, ncv := 3, sigma := 5,
          ritz := { ritz_val := [], ritz_vec := [], info := CompInfo.NotStarted } }
        (SolverOp.computeOp SortRule.LargestMagn 4 [2, -1, 7]
          [[1], [2], [3]])).1 = CompInfo.Converged :=
  C9_eigenvectors_and_accessors_passthrough 5 SortRule.LargestMagn 2
    { ritz_val := [2, -1, 7], ritz_vec := [[1], [2], [3]],
      info := CompInfo.Converged }
    { n := 3, nev := 2, ncv := 3, sigma := 5,
      ritz := { ritz_val := [], ritz_vec := [], info := CompInfo.NotStarted } }
    4 [2, -1, 7] [[1], [2], [3]] (by decide) (by decide)

/-- C4: the operator handed to the Base solver is the composition of the
two user operators: `perform_op(v) = Solve(Mult(v))`, independent of the
contents of the intermediate cache buffer, and the composed operator
declares the same problem dimension as the sub-operators; for concrete
matrix operators this is `S·(B·v)` with S standing for (A−σB)⁻¹. -/
theorem C4_composed_operator_is_solve_after_mult (solve mult : LinOp)
    (cache cache' : List ℚ) (v w : List ℚ) (S B : List (List ℚ))
    (hd : solve.dim = mult.dim) :
    ((SymGEigsShiftInvertOp.mk solve mult cache).perform_op v).2
        = solve.apply (mult.apply v) ∧
    (SymGEigsShiftInvertOp.mk solve mult cache).rows = solve.dim ∧
    (SymGEigsShiftInvertOp.mk solve mult cache).rows = mult.dim ∧
    ((SymGEigsShiftInvertOp.mk solve mult cache).perform_op v).2
        = ((SymGEigsShiftInvertOp.mk solve mult cache').perform_op v).2 ∧
    ((SymGEigsShiftInvertOp.mk solve mult cache).perform_op v).1.cache
        = mult.apply v ∧
    ((SymGEigsShiftInvertOp.mk (matOp S) (matOp B) w).perform_op v).2
        = matVec S (matVec B v) :=
  ⟨rfl, rfl, hd, rfl, rfl, rfl⟩

/-- Witness for C4 with 2×2 matrices S = [[0,1],[1,0]], B = [[2,0],[0,3]]
and v = [1,1]: the composed operator returns S·(B·v) = [3,2]. -/
theorem C4_composed_operator_is_solve_after_mult_witness :
    ((SymGEigsShiftInvertOp.mk (matOp [[0, 1], [1, 0]]) (matOp [[2, 0], [0, 3]])
        []).perform_op [1, 1]).2
        = (matOp [[0, 1], [1, 0]]).apply ((matOp [[2, 0], [0, 3]]).apply [1, 1]) ∧
    (SymGEigsShiftInvertOp.mk (matOp [[0, 1], [1, 0]]) (matOp [[2, 0], [0, 3]])
        []).rows = (matOp [[0, 1], [1, 0]]).dim ∧
    (SymGEigsShiftInvertOp.mk (matOp [[0, 1], [1, 0]]) (matOp [[2, 0], [0, 3]])
        []).rows = (matOp [[2, 0], [0, 3]]).dim ∧
    ((SymGEigsShiftInvertOp.mk (matOp [[0, 1], [1, 0]]) (matOp [[2, 0], [0, 3]])
        []).perform_op [1, 1]).2
        = ((SymGEigsShiftInvertOp.mk (matOp [[0, 1], [1, 0]])
            (matOp [[2, 0], [0, 3]]) [9, 9]).perform_op [1, 1]).2 ∧
    ((SymGEigsShiftInvertOp.mk (matOp [[0, 1], [1, 0]]) (matOp [[2, 0], [0, 3]])
        []).perform_op [1, 1]).1.cache = (matOp [[2, 0], [0, 3]]).apply [1, 1] ∧
    ((SymGEigsShiftInvertOp.mk (matOp [[0, 1], [1, 0]]) (matOp [[2, 0], [0, 3]])
        [9, 9]).perform_op [1, 1]).2
        = matVec [[0, 1], [1, 0]] (matVec [[2, 0], [0, 3]] [1, 1]) :=
  C4_composed_operator_is_solve_after_mult (matOp [[0, 1], [1, 0]])
    (matOp [[2, 0], [0, 3]]) [] [9, 9] [1, 1] [9, 9]
    [[0, 1], [1, 0]] [[2, 0], [0, 3]] rfl

/-- C5 counterexample: the claim puts the injection of σ into the Solve
operator before the construction of the composed operator, but in the
constructor's emitted event trace (concrete valid parameters n = 5,
nev = 1, ncv = 3, σ = 0) the composed operator is built first and the
shift injection is the last event, so the injection does not precede the
composition. -/
theorem C5_counterexample_injection_not_before_composition :
    (solver_construct 5 1 3 0).2.indexOf Ev.buildComposedOp
        < (solver_construct 5 1 3 0).2.indexOf Ev.setShift ∧
    ¬ ((solver_construct 5 1 3 0).2.indexOf Ev.setShift
        < (solver_construct 5 1 3 0).2.indexOf Ev.buildComposedOp) := by
  constructor
  · show (0 : ℕ) < 2
    decide
  · show ¬ ((2 : ℕ) < 0)
    decide

/-- C5 (amended): for any parameters passing validation, construction
performs its steps in this order: it builds the composed operator (as the
argument of the Base-class initializer), then the Base solver's
construction validates 1 ≤ nev < ncv ≤ n, and only then — in the
constructor body, after the Base subobject exists — is σ injected into
the Solve operator; the injection happens exactly once, last. -/
theorem C5_amended_construction_order (n nev ncv : ℕ) (sigma : ℚ)
    (h : base_validate n nev ncv = true) :
    (solver_construct n nev ncv sigma).2.indexOf Ev.buildComposedOp
        < (solver_construct n nev ncv sigma).2.indexOf Ev.validateParams ∧
    (solver_construct n nev ncv sigma).2.indexOf Ev.validateParams
        < (solver_construct n nev ncv sigma).2.indexOf Ev.setShift ∧
    (solver_construct n nev ncv sigma).2.indexOf Ev.setShift
        = (solver_construct n nev ncv sigma).2.length - 1 ∧
    (solver_construct n nev ncv sigma).2.count Ev.setShift = 1 := by
  have htr : (solver_construct n nev ncv sigma).2
      = [Ev.buildComposedOp, Ev.validateParams, Ev.setShift] := by
    unfold solver_construct
    rw [if_pos h]
  rw [htr]
  refine ⟨?_, ?_, ?_, ?_⟩ <;> decide

/-- Witness for C5 (amended) at n = 5, nev = 1, ncv = 3, σ = 0. -/
theorem C5_amended_construction_order_witness :
    (solver_construct 5 1 3 0).2.indexOf Ev.buildComposedOp
        < (solver_construct 5 1 3 0).2.indexOf Ev.validateParams ∧
    (solver_construct 5 1 3 0).2.indexOf Ev.validateParams
        < (solver_construct 5 1 3 0).2.indexOf Ev.setShift ∧
    (solver_construct 5 1 3 0).2.indexOf Ev.setShift
        = (solver_construct 5 1 3 0).2.length - 1 ∧
    (solver_construct 5 1 3 0).2.count Ev.setShift = 1 :=
  C5_amended_construction_order 5 1 3 0 rfl

/-- A run of post-construction solver operations emits no shift
injection event. -/
theorem solver_run_no_setShift (ops : List SolverOp) : ∀ s : Solver,
    ((solver_run s ops).2).count Ev.setShift = 0 := by
  induction ops with
  | nil => intro s; rfl
  | cons op rest ih =>
    intro s
    show ((solver_step s op).2 ++ (solver_run (solver_step s op).1 rest).2).count
        Ev.setShift = 0
    rw [List.count_append, ih]
    cases op <;>
      · rw [Nat.add_zero, List.count_eq_zero]
        simp [solver_step, List.mem_replicate]

/-- Every post-construction solver operation preserves the stored shift
`m_sigma` and the requested count `nev`. -/
theorem solver_run_preserves_sigma_nev (ops : List SolverOp) : ∀ s : Solver,
    (solver_run s ops).1.sigma = s.sigma ∧ (solver_run s ops).1.nev = s.nev := by
  induction ops with
  | nil => intro s; exact ⟨rfl, rfl⟩
  | cons op rest ih =>
    intro s
    have hstep : (solver_step s op).1.sigma = s.sigma ∧
        (solver_step s op).1.nev = s.nev := by
      cases op <;> exact ⟨rfl, rfl⟩
    have hrest := ih (solver_step s op).1
    exact ⟨hrest.1.trans hstep.1, hrest.2.trans hstep.2⟩

/-- An element read off a list by `getD` that differs from the default is
a member of the list. -/
theorem mem_of_getD_ne {α : Type} {l : List α} {i : ℕ} {d x : α}
    (h : l.getD i d = x) (hx : x ≠ d) : x ∈ l := by
  by_cases hi : i < l.length
  · rw [List.getD_eq_getElem _ _ hi] at h
    exact h ▸ List.getElem_mem hi
  · rw [List.getD_eq_default _ _ (Nat.le_of_not_lt hi)] at h
    exact absurd h.symm hx

/-- C7: the Solve operator's shift injection happens exactly once per
solver instance — in the construction trace — and never again: the
construction trace contains one `setShift` and no application of the
composed operator, any subsequent run of Initialize/Compute/accessor
operations emits no `setShift`, and in the combined trace every
`setShift` event precedes every application of the composed operator. -/
theorem C7_set_shift_exactly_once_before_use (n nev ncv : ℕ) (sigma : ℚ)
    (s : Solver) (tr : List Ev) (ops : List SolverOp) (i j : ℕ)
    (h : solver_construct n nev ncv sigma = (Except.ok s, tr))
    (hi : (tr ++ (solver_run s ops).2).getD i Ev.accessEv = Ev.setShift)
    (hj : (tr ++ (solver_run s ops).2).getD j Ev.accessEv
        = Ev.applyComposedEv) :
    tr.count Ev.setShift = 1 ∧
    tr.count Ev.applyComposedEv = 0 ∧
    ((solver_run s ops).2).count Ev.setShift = 0 ∧
    i < j := by
  have htr : tr = [Ev.buildComposedOp, Ev.validateParams, Ev.setShift] := by
    unfold solver_construct at h
    split at h
    · injection h with h1 h2
      exact h2.symm
    · injection h with h1 h2
      exact absurd h1 (by simp)
  have hR := solver_run_no_setShift ops s
  have hlen : tr.length = 3 := by rw [htr]; rfl
  refine ⟨by rw [htr]; decide, by rw [htr]; decide, hR, ?_⟩
  have hi3 : i < 3 := by
    by_contra hge
    rw [List.getD_append_right _ _ _ _ (by omega)] at hi
    have hmem : Ev.setShift ∈ (solver_run s ops).2 :=
      mem_of_getD_ne hi (by decide)
    have hpos := List.count_pos_iff.mpr hmem
    omega
  have hj3 : ¬ j < 3 := by
    intro hjlt
    rw [List.getD_append _ _ _ _ (by omega), htr] at hj
    interval_cases j <;> exact absurd hj (by decide)
  omega

/-- Witness for C7: concrete construction (n = 5, nev = 1, ncv = 3,
σ = 0) followed by an init, a compute and an accessor call; the single
`setShift` sits at index 2, an `applyComposedEv` at index 4. -/
theorem C7_set_shift_exactly_once_before_use_witness :
    ([Ev.buildComposedOp, Ev.validateParams, Ev.setShift].count Ev.setShift = 1) ∧
    ([Ev.buildComposedOp, Ev.validateParams, Ev.setShift].count
        Ev.applyComposedEv = 0) ∧
    ((solver_run
        { n := 5, nev := 1, ncv := 3, sigma := 0,
          ritz := { ritz_val := [], ritz_vec := [], info := CompInfo.NotStarted } }
        [SolverOp.initOp 1,
         SolverOp.computeOp SortRule.LargestMagn 2 [4] [[1]],
         SolverOp.evalsOp]).2).count Ev.setShift = 0 ∧
    (2 : ℕ) < 4 :=
  C7_set_shift_exactly_once_before_use 5 1 3 0
    { n := 5, nev := 1, ncv := 3, sigma := 0,
      ritz := { ritz_val := [], ritz_vec := [], info := CompInfo.NotStarted } }
    [Ev.buildComposedOp, Ev.validateParams, Ev.setShift]
    [SolverOp.initOp 1,
     SolverOp.computeOp SortRule.LargestMagn 2 [4] [[1]],
     SolverOp.evalsOp]
    2 4 rfl rfl rfl

/-- C8: the shift σ is fixed at construction and immutable: the
constructed solver stores the constructor's σ, every sequence of
Initialize/Compute/accessor operations leaves the stored σ (and `nev`)
unchanged, and the ν → λ inversion performed by a compute step uses
exactly the constructor's σ. -/
theorem C8_sigma_immutable_and_used_in_inversion (n nev ncv : ℕ)
    (sigma : ℚ) (s : Solver) (tr : List Ev) (ops : List SolverOp)
    (rule : SortRule) (k : ℕ) (nus : List ℚ) (vecs : List (List ℚ))
    (h : solver_construct n nev ncv sigma = (Except.ok s, tr)) :
    s.sigma = sigma ∧
    (solver_run s ops).1.sigma = sigma ∧
    (solver_step (solver_run s ops).1
        (SolverOp.computeOp rule k nus vecs)).1.ritz
      = sort_ritzpair sigma rule nev
          { ritz_val := nus, ritz_vec := vecs, info := CompInfo.Converged } := by
  have hs : s = { n := n, nev := nev, ncv := ncv, sigma := sigma,
                  ritz := { ritz_val := [], ritz_vec := [],
                            info := CompInfo.NotStarted } } := by
    unfold solver_construct at h
    split at h
    · injection h with h1 h2
      injection h1 with h1
      exact h1.symm
    · injection h with h1 h2
      exact absurd h1 (by simp)
  subst hs
  obtain ⟨hsig, hnev⟩ := solver_run_preserves_sigma_nev ops _
  refine ⟨rfl, hsig, ?_⟩
  show sort_ritzpair (solver_run _ ops).1.sigma rule (solver_run _ ops).1.nev _
      = _
  rw [hsig, hnev]

/-- Witness for C8: concrete construction (n = 5, nev = 1, ncv = 3,
σ = 7) followed by an init; a compute step then inverts with σ = 7. -/
theorem C8_sigma_immutable_and_used_in_inversion_witness :
    ({ n := 5, nev := 1, ncv := 3, sigma := 7,
        ritz := { ritz_val := [], ritz_vec := [],
                  info := CompInfo.NotStarted } } : Solver).sigma = 7 ∧
    (solver_run
        { n := 5, nev := 1, ncv := 3, sigma := 7,
          ritz := { ritz_val := [], ritz_vec := [], info := CompInfo.NotStarted } }
        [SolverOp.initOp 1]).1.sigma = 7 ∧
    (solver_step (solver_run
        { n := 5, nev := 1, ncv := 3, sigma := 7,
          ritz := { ritz_val := [], ritz_vec := [], info := CompInfo.NotStarted } }
        [SolverOp.initOp 1]).1
        (SolverOp.computeOp SortRule.LargestMagn 2 [4] [[1]])).1.ritz
      = sort_ritzpair 7 SortRule.LargestMagn 1
          { ritz_val := [4], ritz_vec := [[1]], info := CompInfo.Converged } :=
  C8_sigma_immutable_and_used_in_inversion 5 1 3 7
    { n := 5, nev := 1, ncv := 3, sigma := 7,
      ritz := { ritz_val := [], ritz_vec := [], info := CompInfo.NotStarted } }
    [Ev.buildComposedOp, Ev.validateParams, Ev.setShift]
    [SolverOp.initOp 1] SortRule.LargestMagn 2 [4] [[1]] rfl

end Spectra
